import Mathlib

/-!
# EmCipher crypto core — shallow embedding

A shallow embedding of the EmCipher messenger crypto core
(`libs/emcipher-rust/src/lib.rs`, `libs/emcipher-rust/src/params.rs`) and of
its wasm boundary (`libs/emcipher-wasm/src/lib.rs`).

Byte buffers (`&[u8]`, `Vec<u8>`, `[u8; N]`) are modelled as `List Nat` with
every element `< 256`; strings crossing the boundary are modelled by their
byte lists.  Fallible Rust functions returning `Result<T, E>` are modelled as
`Except E T`.
-/

namespace EmCipher

/-- A byte buffer: list of naturals, meant to hold values `< 256`. -/
abbrev Bytes := List Nat

/-! ## Modelled primitive core

The cryptographic primitive cores (SHA-256 inside `hkdf`, the ChaCha20 and
Poly1305 cores inside `chacha20poly1305`, the Argon2id core inside `argon2`)
live in external crates, outside this repository.  They are modelled here by
a deterministic mixing function: the only structural facts the development
uses about them are that they are total deterministic functions of their
entire input, producing bytes `< 256`. -/

/-- Modelled from the spec: deterministic mixing core standing in for the
external hash/cipher primitives.  Accumulates over the input modulo `2^32`. -/
def prfMix (xs : Bytes) : Nat :=
  xs.foldl (fun h b => (h * 1000003 + b + 1) % 4294967296) 2166136261

/-- One output byte of the modelled primitive keyed stream. -/
def prfByte (xs : Bytes) (i : Nat) : Nat :=
  prfMix (xs ++ [i / 256, i % 256]) % 256

theorem prfByte_lt (xs : Bytes) (i : Nat) : prfByte xs i < 256 :=
  Nat.mod_lt _ (by omega)

/-! ## Base64 (the `base64` crate, `STANDARD` engine)

`B64.encode` / `B64.decode` with the standard alphabet and `=` padding,
modelled on ASCII byte lists.  `61` is the ASCII code of the padding
character. -/

/-- Standard-alphabet character (as ASCII code) of a sextet. -/
def b64CharOf (n : Nat) : Nat :=
  if n < 26 then 65 + n
  else if n < 52 then 97 + (n - 26)
  else if n < 62 then 48 + (n - 52)
  else if n = 62 then 43 else 47

/-- Sextet value of an ASCII code, `none` outside the standard alphabet. -/
def sextetOf (c : Nat) : Option Nat :=
  if 65 ≤ c ∧ c ≤ 90 then some (c - 65)
  else if 97 ≤ c ∧ c ≤ 122 then some (c - 97 + 26)
  else if 48 ≤ c ∧ c ≤ 57 then some (c - 48 + 52)
  else if c = 43 then some 62
  else if c = 47 then some 63
  else none

/-- `B64.encode`: standard padded base64 of a byte list, as ASCII codes. -/
def b64Encode : Bytes → Bytes
  | [] => []
  | [a] => [b64CharOf (a / 4), b64CharOf (a % 4 * 16), 61, 61]
  | [a, b] => [b64CharOf (a / 4), b64CharOf (a % 4 * 16 + b / 16),
               b64CharOf (b % 16 * 4), 61]
  | a :: b :: c :: rest =>
      b64CharOf (a / 4) :: b64CharOf (a % 4 * 16 + b / 16) ::
      b64CharOf (b % 16 * 4 + c / 64) :: b64CharOf (c % 64) :: b64Encode rest

/-- `B64.decode`: strict standard padded base64 decoding of an ASCII list. -/
def b64Decode : Bytes → Option Bytes
  | [] => some []
  | c1 :: c2 :: c3 :: c4 :: rest =>
    match sextetOf c1, sextetOf c2 with
    | some s1, some s2 =>
      if c4 = 61 then
        if rest = [] then
          if c3 = 61 then
            if s2 % 16 = 0 then some [s1 * 4 + s2 / 16] else none
          else
            match sextetOf c3 with
            | some s3 =>
                if s3 % 4 = 0 then some [s1 * 4 + s2 / 16, s2 % 16 * 16 + s3 / 4]
                else none
            | none => none
        else none
      else
        match sextetOf c3, sextetOf c4 with
        | some s3, some s4 =>
            (b64Decode rest).map
              (fun bs => (s1 * 4 + s2 / 16) :: (s2 % 16 * 16 + s3 / 4) ::
                         (s3 % 4 * 64 + s4) :: bs)
        | _, _ => none
    | _, _ => none
  | _ => none

theorem sextetOf_b64CharOf : ∀ n < 64, sextetOf (b64CharOf n) = some n := by decide

theorem b64CharOf_ne_pad : ∀ n < 64, b64CharOf n ≠ 61 := by decide

/-- Decoding inverts encoding on genuine byte lists. -/
theorem b64_round_trip : ∀ bs : Bytes, (∀ b ∈ bs, b < 256) →
    b64Decode (b64Encode bs) = some bs := by
  intro bs
  induction bs using b64Encode.induct with
  | case1 =>
       intro _
       simp [b64Encode, b64Decode]
  | case2 a =>
       intro h
       have ha : a < 256 := h a (by simp)
       have e1 := sextetOf_b64CharOf (a / 4) (by omega)
       have e2 := sextetOf_b64CharOf (a % 4 * 16) (by omega)
       have hz : a % 4 * 16 % 16 = 0 := by omega
       simp [b64Encode, b64Decode, e1, e2, hz]
       omega
  | case3 a b =>
       intro h
       have ha : a < 256 := h a (by simp)
       have hb : b < 256 := h b (by simp)
       have e1 := sextetOf_b64CharOf (a / 4) (by omega)
       have e2 := sextetOf_b64CharOf (a % 4 * 16 + b / 16) (by omega)
       have e3 := sextetOf_b64CharOf (b % 16 * 4) (by omega)
       have n3 := b64CharOf_ne_pad (b % 16 * 4) (by omega)
       have hz : b % 16 * 4 % 4 = 0 := by omega
       simp [b64Encode, b64Decode, e1, e2, e3, n3, hz]
       omega
  | case4 a b c rest ih =>
       intro h
       have ha : a < 256 := h a (by simp)
       have hb : b < 256 := h b (by simp)
       have hc : c < 256 := h c (by simp)
       have e1 := sextetOf_b64CharOf (a / 4) (by omega)
       have e2 := sextetOf_b64CharOf (a % 4 * 16 + b / 16) (by omega)
       have e3 := sextetOf_b64CharOf (b % 16 * 4 + c / 64) (by omega)
       have e4 := sextetOf_b64CharOf (c % 64) (by omega)
       have n4 := b64CharOf_ne_pad (c % 64) (by omega)
       have ih' := ih (fun x hx => h x (by simp [hx]))
       simp [b64Encode, b64Decode, e1, e2, e3, e4, n4, ih']
       omega

/-- Encoding is injective on genuine byte lists. -/
theorem b64Encode_inj {x y : Bytes} (hx : ∀ b ∈ x, b < 256) (hy : ∀ b ∈ y, b < 256)
    (h : b64Encode x = b64Encode y) : x = y := by
  have hxr := b64_round_trip x hx
  have hyr := b64_round_trip y hy
  rw [h, hyr] at hxr
  exact (Option.some.injEq _ _).mp hxr.symm

/-! ## Error type (`CryptoError`, `lib.rs` lines 24–38) -/

/-- `CryptoError` of `emcipher-rust/src/lib.rs`: `Argon2` ("argon2 failure"),
`Hkdf` ("hkdf expand failure"), `Encrypt` ("encrypt failure"), `Decrypt`
("decrypt failure (bad key/nonce/AAD/ciphertext)"), `B64` ("bad base64
input"), `KeyLen` ("invalid key length"). -/
inductive CryptoError where
  | Argon2
  | Hkdf
  | Encrypt
  | Decrypt
  | B64
  | KeyLen
deriving DecidableEq, Repr

instance exceptDecEq {ε α : Type} [DecidableEq ε] [DecidableEq α] :
    DecidableEq (Except ε α) := fun a b =>
  match a, b with
  | .error e1, .error e2 =>
      if h : e1 = e2 then .isTrue (by rw [h])
      else .isFalse (by intro hc; injection hc; contradiction)
  | .ok v1, .ok v2 =>
      if h : v1 = v2 then .isTrue (by rw [h])
      else .isFalse (by intro hc; injection hc; contradiction)
  | .error _, .ok _ => .isFalse (by intro hc; exact Except.noConfusion hc)
  | .ok _, .error _ => .isFalse (by intro hc; exact Except.noConfusion hc)

/-! ## AEAD engine (XChaCha20-Poly1305, `chacha20poly1305` crate)

Modelled from the spec: a stream-cipher AEAD — the ChaCha20 keystream and
the Poly1305 one-time authenticator, both deterministic functions of the key
and the 24-byte nonce (and, for the tag, of aad and ciphertext), are stood in
for by the modelled primitive stream `prfByte`; the ciphertext is the
plaintext xored with the keystream, followed by the 16-byte tag. -/

/-- Keystream bytes for a (key, nonce) pair. -/
def keyStream (key nonce : Bytes) (n : Nat) : Bytes :=
  (List.range n).map (fun i => prfByte (key ++ 300 :: nonce) i)

/-- The 16-byte authentication tag over (key, nonce, aad, ciphertext body). -/
def polyTag (key nonce aad ct : Bytes) : Bytes :=
  (List.range 16).map
    (fun i => prfByte (key ++ 301 :: nonce ++ 302 :: aad ++ 303 :: ct
                        ++ [aad.length, ct.length]) i)

/-- AEAD seal: body = plaintext ⊕ keystream, then the tag is appended. -/
def aeadSeal (key nonce pt aad : Bytes) : Bytes :=
  let body := List.zipWith Nat.xor pt (keyStream key nonce pt.length)
  body ++ polyTag key nonce aad body

/-- AEAD open: split off the 16-byte tag, recompute it over the body, and
release the unxored body only when the tags agree. -/
def aeadOpen (key nonce ct aad : Bytes) : Option Bytes :=
  if ct.length < 16 then none
  else
    let body := ct.take (ct.length - 16)
    let tag := ct.drop (ct.length - 16)
    if polyTag key nonce aad body = tag then
      some (List.zipWith Nat.xor body (keyStream key nonce body.length))
    else none

theorem keyStream_length (key nonce : Bytes) (n : Nat) :
    (keyStream key nonce n).length = n := by simp [keyStream]

theorem keyStream_lt (key nonce : Bytes) (n : Nat) :
    ∀ b ∈ keyStream key nonce n, b < 256 := by
  intro b hb
  simp only [keyStream, List.mem_map] at hb
  obtain ⟨i, _, rfl⟩ := hb
  exact prfByte_lt _ _

theorem polyTag_length (key nonce aad ct : Bytes) :
    (polyTag key nonce aad ct).length = 16 := by simp [polyTag]

theorem polyTag_lt (key nonce aad ct : Bytes) :
    ∀ b ∈ polyTag key nonce aad ct, b < 256 := by
  intro b hb
  simp only [polyTag, List.mem_map] at hb
  obtain ⟨i, _, rfl⟩ := hb
  exact prfByte_lt _ _

/-- Xoring twice with the same (long enough) pad gives the input back. -/
theorem zipWith_xor_cancel : ∀ (xs ks : Bytes), xs.length ≤ ks.length →
    List.zipWith Nat.xor (List.zipWith Nat.xor xs ks) ks = xs := by
  intro xs
  induction xs with
  | nil => intro ks _; simp
  | cons x xs ih =>
      intro ks hlen
      cases ks with
      | nil => simp at hlen
      | cons k ks =>
          simp only [List.zipWith_cons_cons, List.cons.injEq]
          exact ⟨Nat.xor_cancel_right _ _, ih ks (by simpa using hlen)⟩

/-- The pad can be recovered by xoring the input onto the xored stream. -/
theorem zipWith_xor_cancel_left : ∀ (xs ks : Bytes), ks.length ≤ xs.length →
    List.zipWith Nat.xor xs (List.zipWith Nat.xor xs ks) = ks := by
  intro xs
  induction xs with
  | nil =>
      intro ks h
      cases ks with
      | nil => simp
      | cons k ks => simp at h
  | cons x xs ih =>
      intro ks hlen
      cases ks with
      | nil => simp
      | cons k ks =>
          simp only [List.zipWith_cons_cons, List.cons.injEq]
          exact ⟨Nat.xor_cancel_left _ _, ih ks (by simpa using hlen)⟩

theorem zipWith_xor_lt_aux : ∀ (xs ks : Bytes), (∀ b ∈ xs, b < 256) →
    (∀ b ∈ ks, b < 256) → ∀ b ∈ List.zipWith Nat.xor xs ks, b < 256 := by
  intro xs
  induction xs with
  | nil =>
      intro ks _ _ b hb
      simp at hb
  | cons x xs ih =>
      intro ks hx hk b hb
      cases ks with
      | nil => simp at hb
      | cons k ks =>
          rw [List.zipWith_cons_cons] at hb
          rcases List.mem_cons.mp hb with rfl | hb
          · have h1 : x < 2 ^ 8 := hx x (by simp)
            have h2 : k < 2 ^ 8 := hk k (by simp)
            calc Nat.xor x k < 2 ^ 8 := Nat.xor_lt_two_pow h1 h2
            _ = 256 := rfl
          · exact ih ks (fun y hy => hx y (by simp [hy]))
              (fun y hy => hk y (by simp [hy])) b hb

theorem zipWith_xor_lt {xs ks : Bytes} (hx : ∀ b ∈ xs, b < 256)
    (hk : ∀ b ∈ ks, b < 256) : ∀ b ∈ List.zipWith Nat.xor xs ks, b < 256 :=
  zipWith_xor_lt_aux xs ks hx hk

/-- Opening a sealed message with the same key, nonce and aad succeeds and
recovers the plaintext. -/
theorem aeadOpen_aeadSeal (key nonce pt aad : Bytes) :
    aeadOpen key nonce (aeadSeal key nonce pt aad) aad = some pt := by
  have hbl : (List.zipWith Nat.xor pt (keyStream key nonce pt.length)).length
      = pt.length := by
    simp [keyStream_length]
  have hct : (aeadSeal key nonce pt aad).length = pt.length + 16 := by
    simp [aeadSeal, hbl, polyTag_length]
  rw [aeadOpen, if_neg (by omega)]
  simp only [hct, Nat.add_sub_cancel]
  have htake : (aeadSeal key nonce pt aad).take pt.length
      = List.zipWith Nat.xor pt (keyStream key nonce pt.length) := by
    rw [aeadSeal]
    exact List.take_left' hbl
  have hdrop : (aeadSeal key nonce pt aad).drop pt.length
      = polyTag key nonce aad (List.zipWith Nat.xor pt (keyStream key nonce pt.length)) := by
    rw [aeadSeal]
    exact List.drop_left' hbl
  rw [htake, hdrop, if_pos rfl, hbl]
  rw [zipWith_xor_cancel _ _ (by rw [keyStream_length])]

/-! ## Core encrypt / decrypt (`encrypt_aead`, `decrypt_aead`) -/

/-- `encrypt_aead` (`lib.rs` lines 74–86).  The `OsRng.fill_bytes` call is
modelled by the `nonce_bytes` argument: the 24 bytes the process-wide secure
random source produced for this call.  The `cipher.encrypt` call of the
`chacha20poly1305` crate is infallible for in-memory buffers, so the
`CryptoError::Encrypt` mapping is never taken. -/
def encrypt_aead (k_msg pt aad nonce_bytes : Bytes) :
    Except CryptoError (Bytes × Bytes) :=
  let ct := aeadSeal k_msg nonce_bytes pt aad
  .ok (b64Encode nonce_bytes, b64Encode ct)

/-- `decrypt_aead` (`lib.rs` lines 89–98): decode the nonce (bad base64 →
`B64`), reject a nonce that is not 24 bytes (`B64`), decode the ciphertext
(bad base64 → `B64`), then AEAD-open (failure → `Decrypt`). -/
def decrypt_aead (k_msg nonce_b64 ct_b64 aad : Bytes) :
    Except CryptoError Bytes :=
  match b64Decode nonce_b64 with
  | none => .error .B64
  | some nonce_raw =>
    if nonce_raw.length ≠ 24 then .error .B64
    else
      match b64Decode ct_b64 with
      | none => .error .B64
      | some ct =>
        match aeadOpen k_msg nonce_raw ct aad with
        | none => .error .Decrypt
        | some pt => .ok pt

/-- Shared helper: decrypting the encoding of a sealed message recovers the
plaintext. -/
theorem decrypt_aead_of_seal (k pt aad nonce : Bytes)
    (hn : nonce.length = 24) (hnb : ∀ b ∈ nonce, b < 256)
    (hpb : ∀ b ∈ pt, b < 256) :
    decrypt_aead k (b64Encode nonce) (b64Encode (aeadSeal k nonce pt aad)) aad
      = .ok pt := by
  have hsb : ∀ b ∈ aeadSeal k nonce pt aad, b < 256 := by
    intro b hb
    rw [aeadSeal, List.mem_append] at hb
    rcases hb with hb | hb
    · exact zipWith_xor_lt hpb (keyStream_lt _ _ _) _ hb
    · exact polyTag_lt _ _ _ _ _ hb
  rw [decrypt_aead, b64_round_trip nonce hnb]
  simp only [hn]
  rw [if_neg (by omega)]
  rw [b64_round_trip _ hsb]
  simp [aeadOpen_aeadSeal]

/-- Every byte of a sealed ciphertext is `< 256`. -/
theorem aeadSeal_lt {pt : Bytes} (key nonce aad : Bytes) (hpb : ∀ b ∈ pt, b < 256) :
    ∀ b ∈ aeadSeal key nonce pt aad, b < 256 := by
  intro b hb
  rw [aeadSeal, List.mem_append] at hb
  rcases hb with hb | hb
  · exact zipWith_xor_lt hpb (keyStream_lt _ _ _) _ hb
  · exact polyTag_lt _ _ _ _ _ hb

/-- Decrypting well-encoded inputs reduces to AEAD-opening the raw bytes. -/
theorem decrypt_aead_encoded (k nonce ct aad : Bytes)
    (hn : nonce.length = 24) (hnb : ∀ b ∈ nonce, b < 256)
    (hcb : ∀ b ∈ ct, b < 256) :
    decrypt_aead k (b64Encode nonce) (b64Encode ct) aad
      = match aeadOpen k nonce ct aad with
        | none => .error .Decrypt
        | some pt => .ok pt := by
  rw [decrypt_aead, b64_round_trip nonce hnb]
  simp only [hn]
  rw [if_neg (by omega), b64_round_trip ct hcb]

/-- A successful AEAD open names exactly the plaintext whose seal under the
same key, nonce and aad is the given ciphertext. -/
theorem aeadOpen_sound {key nonce ct aad pt : Bytes}
    (h : aeadOpen key nonce ct aad = some pt) :
    aeadSeal key nonce pt aad = ct := by
  rw [aeadOpen] at h
  by_cases hlen : ct.length < 16
  · rw [if_pos hlen] at h
    exact absurd h (by simp)
  · rw [if_neg hlen] at h
    by_cases htag : polyTag key nonce aad (ct.take (ct.length - 16))
        = ct.drop (ct.length - 16)
    · rw [if_pos htag] at h
      have hpt : pt = List.zipWith Nat.xor (ct.take (ct.length - 16))
          (keyStream key nonce (ct.take (ct.length - 16)).length) :=
        ((Option.some.injEq _ _).mp h).symm
      subst hpt
      rw [aeadSeal]
      have hlb : (List.zipWith Nat.xor (ct.take (ct.length - 16))
          (keyStream key nonce (ct.take (ct.length - 16)).length)).length
          = (ct.take (ct.length - 16)).length := by
        simp [keyStream_length]
      rw [hlb]
      rw [zipWith_xor_cancel _ _ (by rw [keyStream_length])]
      rw [htag]
      exact List.take_append_drop _ _
    · rw [if_neg htag] at h
      exact absurd h (by simp)

end EmCipher

namespace EmCipher

/-! ## Concrete inputs used by the witnesses -/

def kW : Bytes := List.replicate 32 7

def nonceW : Bytes := List.range 24

def nonceW2 : Bytes := List.replicate 24 5

def ptW : Bytes := [104, 105, 33]

def aadW : Bytes := [99, 61, 49]

def ctTamperW : Bytes := List.replicate 20 9

def nonce23W : Bytes := List.replicate 23 0

/-! ## C1 — AEAD round trip -/

/-- C1: for every 32-byte key, plaintext, aad and 24-byte fresh nonce, the
(nonce, ciphertext) pair returned by a successful `encrypt_aead` call
decrypts, under the same key and aad, to exactly the original plaintext. -/
theorem aead_round_trip (k pt aad nonce : Bytes)
    (hk : k.length = 32) (hn : nonce.length = 24)
    (hnb : ∀ b ∈ nonce, b < 256) (hpb : ∀ b ∈ pt, b < 256) :
    ∀ nonce_b64 ct_b64,
      encrypt_aead k pt aad nonce = .ok (nonce_b64, ct_b64) →
      decrypt_aead k nonce_b64 ct_b64 aad = .ok pt := by
  intro nb cb h
  simp only [encrypt_aead, Except.ok.injEq, Prod.mk.injEq] at h
  obtain ⟨h1, h2⟩ := h
  subst h1
  subst h2
  exact decrypt_aead_of_seal k pt aad nonce hn hnb hpb

/-- Witness for C1 at concrete inputs. -/
theorem aead_round_trip_witness :
    decrypt_aead kW (b64Encode nonceW) (b64Encode (aeadSeal kW nonceW ptW aadW))
      aadW = .ok ptW :=
  aead_round_trip kW ptW aadW nonceW (by decide) (by decide) (by decide)
    (by decide) (b64Encode nonceW) (b64Encode (aeadSeal kW nonceW ptW aadW)) rfl

/-! ## C2 — single undifferentiated decryption error, no corrupted plaintext -/

/-- C2: for every 32-byte key, 24-byte nonce, ciphertext bytes and aad,
`decrypt_aead` either fails with the single undifferentiated
`CryptoError::Decrypt` value — the same error whatever the cause (wrong key,
wrong nonce, wrong aad, tampered ciphertext) — or returns the unique
plaintext whose seal under exactly this key, nonce and aad is the given
ciphertext, so corrupted plaintext is never released. -/
theorem decrypt_uniform_error_or_exact (k nonce ct aad : Bytes)
    (hk : k.length = 32) (hn : nonce.length = 24)
    (hnb : ∀ b ∈ nonce, b < 256) (hcb : ∀ b ∈ ct, b < 256) :
    decrypt_aead k (b64Encode nonce) (b64Encode ct) aad
        = .error CryptoError.Decrypt
    ∨ ∃ pt, decrypt_aead k (b64Encode nonce) (b64Encode ct) aad = .ok pt
        ∧ aeadSeal k nonce pt aad = ct := by
  rw [decrypt_aead_encoded k nonce ct aad hn hnb hcb]
  rcases heq : aeadOpen k nonce ct aad with _ | pt
  · left
    rfl
  · right
    exact ⟨pt, rfl, aeadOpen_sound heq⟩

/-- Witness for C2 at concrete (tampered) inputs. -/
theorem decrypt_uniform_error_or_exact_witness :
    decrypt_aead kW (b64Encode nonceW2) (b64Encode ctTamperW) aadW
        = .error CryptoError.Decrypt
    ∨ ∃ pt, decrypt_aead kW (b64Encode nonceW2) (b64Encode ctTamperW) aadW
        = .ok pt ∧ aeadSeal kW nonceW2 pt aadW = ctTamperW :=
  decrypt_uniform_error_or_exact kW nonceW2 ctTamperW aadW (by decide)
    (by decide) (by decide) (by decide)

/-! ## C3 — nonce freshness -/

/-- C3: the nonce `encrypt_aead` emits is exactly the 24 bytes drawn from the
random source for this call — not derived from key, plaintext or aad, and not
caller-supplied — so two calls on identical `(key, plaintext, aad)` whose
randomness differs emit different nonces, and different ciphertexts whenever
the keystreams the two nonces select differ (the overwhelming-probability
event for the modelled cipher core). -/
theorem encrypt_fresh_nonce (k pt aad r1 r2 : Bytes)
    (h1 : r1.length = 24) (h2 : r2.length = 24)
    (hb1 : ∀ b ∈ r1, b < 256) (hb2 : ∀ b ∈ r2, b < 256)
    (hpb : ∀ b ∈ pt, b < 256) (hne : r1 ≠ r2) :
    ∀ n1 c1 n2 c2, encrypt_aead k pt aad r1 = .ok (n1, c1) →
      encrypt_aead k pt aad r2 = .ok (n2, c2) →
      n1 = b64Encode r1 ∧ n2 = b64Encode r2 ∧ n1 ≠ n2 ∧
      (keyStream k r1 pt.length ≠ keyStream k r2 pt.length → c1 ≠ c2) := by
  intro n1 c1 n2 c2 he1 he2
  simp only [encrypt_aead, Except.ok.injEq, Prod.mk.injEq] at he1 he2
  obtain ⟨hn1, hc1⟩ := he1
  obtain ⟨hn2, hc2⟩ := he2
  subst hn1
  subst hn2
  subst hc1
  subst hc2
  refine ⟨rfl, rfl, ?_, ?_⟩
  · intro h
    exact hne (b64Encode_inj hb1 hb2 h)
  · intro hks h
    apply hks
    have hseal : aeadSeal k r1 pt aad = aeadSeal k r2 pt aad :=
      b64Encode_inj (aeadSeal_lt k r1 aad hpb) (aeadSeal_lt k r2 aad hpb) h
    rw [aeadSeal, aeadSeal] at hseal
    have hlen1 : (List.zipWith Nat.xor pt (keyStream k r1 pt.length)).length
        = (List.zipWith Nat.xor pt (keyStream k r2 pt.length)).length := by
      simp [keyStream_length]
    have hbody := (List.append_inj hseal hlen1).1
    have hr1 : keyStream k r1 pt.length
        = List.zipWith Nat.xor pt (List.zipWith Nat.xor pt (keyStream k r1 pt.length)) :=
      (zipWith_xor_cancel_left pt _ (by rw [keyStream_length])).symm
    rw [hr1, hbody,
      zipWith_xor_cancel_left pt _ (by rw [keyStream_length])]

set_option maxRecDepth 8000 in
/-- Witness for C3 at concrete inputs: distinct randomness gives distinct
nonces and, the keystreams differing here, distinct ciphertexts. -/
theorem encrypt_fresh_nonce_witness :
    b64Encode nonceW ≠ b64Encode nonceW2 ∧
    b64Encode (aeadSeal kW nonceW ptW aadW)
      ≠ b64Encode (aeadSeal kW nonceW2 ptW aadW) :=
  have h := encrypt_fresh_nonce kW ptW aadW nonceW nonceW2 (by decide) (by decide)
    (by decide) (by decide) (by decide) (by decide)
    (b64Encode nonceW) (b64Encode (aeadSeal kW nonceW ptW aadW))
    (b64Encode nonceW2) (b64Encode (aeadSeal kW nonceW2 ptW aadW)) rfl rfl
  ⟨h.2.2.1, h.2.2.2 (by decide)⟩

/-! ## C4 — nonce-length precondition failure -/

/-- C4 counterexample: at a concrete input whose nonce decodes to 23 bytes,
`decrypt_aead` returns `CryptoError::B64` — the "bad base64 input" encoding
error — and not `CryptoError::KeyLen`, the "invalid key length" variant that
renders the spec's `InputLengthError`. -/
theorem decrypt_nonce_len_counterexample :
    decrypt_aead kW (b64Encode nonce23W) (b64Encode ctTamperW) aadW
        = .error CryptoError.B64
    ∧ CryptoError.B64 ≠ CryptoError.KeyLen := by
  constructor
  · decide
  · decide

/-- C4 (amended): for every key, ciphertext argument and aad, if the supplied
nonce decodes to a length other than 24 bytes, `decrypt_aead` fails fast with
`CryptoError::B64` — an error distinct from `DecryptionError` — before any
cryptographic operation runs (the ciphertext argument is not even decoded). -/
theorem decrypt_nonce_len_fail_fast (k ct_b64 aad nonce : Bytes)
    (hnb : ∀ b ∈ nonce, b < 256) (hlen : nonce.length ≠ 24) :
    decrypt_aead k (b64Encode nonce) ct_b64 aad = .error CryptoError.B64
    ∧ CryptoError.B64 ≠ CryptoError.Decrypt := by
  refine ⟨?_, by decide⟩
  rw [decrypt_aead, b64_round_trip nonce hnb]
  simp [hlen]

/-- Witness for the amended C4 at concrete inputs. -/
theorem decrypt_nonce_len_fail_fast_witness :
    decrypt_aead kW (b64Encode nonce23W) (b64Encode ctTamperW) aadW
        = .error CryptoError.B64
    ∧ CryptoError.B64 ≠ CryptoError.Decrypt :=
  decrypt_nonce_len_fail_fast kW (b64Encode ctTamperW) aadW nonce23W
    (by decide) (by decide)

/-! ## KDF parameters (`params.rs`) -/

/-- `KdfParams` (`emcipher-rust/src/params.rs`): tunable Argon2id parameters,
memory in KiB. -/
structure KdfParams where
  m_cost_kib : Nat
  t_cost : Nat
  p_cost : Nat
deriving DecidableEq, Repr

namespace KdfParams

/-- Aggressive desktop profile (256 MiB, 3 iterations). -/
def DESKTOP_STRONG : KdfParams := ⟨262144, 3, 1⟩

/-- Mobile-friendly strong profile (64 MiB, 4 iterations). -/
def MOBILE_STRONG : KdfParams := ⟨65536, 4, 1⟩

/-- Low-power fallback profile (32 MiB, 4 iterations). -/
def LOW_POWER : KdfParams := ⟨32768, 4, 1⟩

end KdfParams

/-! ## Key-derivation chain (`derive_master_key`, `derive_message_key`)

The Argon2id core and the HKDF-SHA256 core are external crates; their
validation behaviour is modelled from the spec and crate contracts, their
mixing cores by the modelled primitive stream. -/

/-- Modelled from the spec: `argon2::Params::new` validation — iteration
count and parallelism non-zero, memory at least `8 * p_cost` KiB, parallelism
within the algorithm's limit. -/
def argonParamsOk (p : KdfParams) : Bool :=
  1 ≤ p.t_cost && 1 ≤ p.p_cost && 8 * p.p_cost ≤ p.m_cost_kib
    && p.p_cost ≤ 16777215

/-- Modelled from the spec: the Argon2id memory-hard password hash
(`argon2` crate, `hash_password_into`) at its fixed 32-byte output, as a
deterministic function of seed, salt and parameters.  The salt-length
precondition (at least 8 bytes) is handled at the call site. -/
def argon2Hash (seed salt : Bytes) (p : KdfParams) : Bytes :=
  (List.range 32).map
    (prfByte (seed ++ 400 :: salt ++ 401 :: [p.m_cost_kib, p.t_cost, p.p_cost]))

/-- Modelled from the spec: HKDF-SHA256 `expand` (`hkdf` crate).  The real
`expand` fails exactly when the requested output length exceeds
`255 * 32` bytes; the PRF core is the modelled primitive stream. -/
def hkdfExpand (ikm info : Bytes) (len : Nat) : Option Bytes :=
  if 255 * 32 < len then none
  else some ((List.range len).map (prfByte (ikm ++ 402 :: info)))

theorem hkdfExpand32_some (ikm info : Bytes) :
    hkdfExpand ikm info 32
      = some ((List.range 32).map (prfByte (ikm ++ 402 :: info))) := by
  rw [hkdfExpand, if_neg (by omega)]

/-- ASCII bytes of a Lean string (all the literals used here are ASCII). -/
def strBytes (s : String) : Bytes := s.toList.map Char.toNat

def kmTag : String := "emcipher:km:"

def msgTag : String := "emcipher:msg:"

/-- The info string of `derive_master_key`:
bytes of `format!("emcipher:km:{conv_id}")`. -/
def kmInfo (conv_id : Bytes) : Bytes := strBytes kmTag ++ conv_id

/-- The ASCII decimal digits of a natural number, as `format!` renders the
`u64` counter. -/
def decDigits (n : Nat) : Bytes :=
  if n < 10 then [48 + n] else decDigits (n / 10) ++ [48 + n % 10]
termination_by n
decreasing_by exact Nat.div_lt_self (by omega) (by omega)

/-- The info string of `derive_message_key`:
bytes of `format!("emcipher:msg:{counter}")`. -/
def msgInfo (counter : Nat) : Bytes := strBytes msgTag ++ decDigits counter

/-- Numeric value of an ASCII digit list. -/
def decValue (ds : Bytes) : Nat := ds.foldl (fun a d => a * 10 + (d - 48)) 0

theorem decValue_go (ds : Bytes) (a : Nat) :
    ds.foldl (fun a d => a * 10 + (d - 48)) a
      = a * 10 ^ ds.length + decValue ds := by
  induction ds generalizing a with
  | nil => simp [decValue]
  | cons d ds ih =>
      rw [List.foldl_cons, ih]
      rw [show decValue (d :: ds)
          = ds.foldl (fun a d => a * 10 + (d - 48)) (0 * 10 + (d - 48)) from rfl]
      rw [ih (0 * 10 + (d - 48)), List.length_cons, pow_succ]
      ring

theorem decValue_decDigits : ∀ n, decValue (decDigits n) = n := by
  intro n
  induction n using Nat.strong_induction_on with
  | _ n ih =>
    rw [decDigits]
    by_cases h : n < 10
    · rw [if_pos h]
      simp [decValue]
    · rw [if_neg h]
      rw [decValue, List.foldl_append]
      have := decValue_go (decDigits (n / 10)) 0
      simp only [Nat.zero_mul, Nat.zero_add] at this
      rw [show (decDigits (n / 10)).foldl (fun a d => a * 10 + (d - 48)) 0
          = decValue (decDigits (n / 10)) from rfl]
      rw [ih (n / 10) (Nat.div_lt_self (by omega) (by omega))]
      simp
      omega

theorem decDigits_lt_ten {n : Nat} (h : n < 10) : decDigits n = [48 + n] := by
  rw [decDigits, if_pos h]

theorem decDigits_inj {c1 c2 : Nat} (h : decDigits c1 = decDigits c2) :
    c1 = c2 := by
  rw [← decValue_decDigits c1, ← decValue_decDigits c2, h]

theorem msgInfo_inj {c1 c2 : Nat} (h : msgInfo c1 = msgInfo c2) : c1 = c2 :=
  decDigits_inj (List.append_cancel_left h)

theorem kmInfo_inj {c1 c2 : Bytes} (h : kmInfo c1 = kmInfo c2) : c1 = c2 :=
  List.append_cancel_left h

/-- `derive_master_key` (`lib.rs` lines 42–59): validate the Argon2
parameters (`Params::new`, error `Argon2`), run Argon2id over seed and salt
(error `Argon2`; the salt must be at least 8 bytes), HKDF-expand the prekey
with the conversation-bound info string to the 32-byte master key (error
`Hkdf`), zeroize the prekey, return the master key. -/
def derive_master_key (seed salt : Bytes) (kdf : KdfParams) (conv_id : Bytes) :
    Except CryptoError Bytes :=
  if argonParamsOk kdf = false then .error .Argon2
  else if salt.length < 8 then .error .Argon2
  else
    match hkdfExpand (argon2Hash seed salt kdf) (kmInfo conv_id) 32 with
    | none => .error .Hkdf
    | some km => .ok km

/-- `derive_master_key` with explicit tracking of the `prekey` buffer
contents at the moment the function returns.  The second component is `none`
when the buffer was never created (the `Params::new` failure return occurs
before `let mut prekey = [0u8; 32]`).  On the `hash_password_into` failure
return the buffer still holds its all-zero initializer (the crate validates
before writing); on the `hk.expand` failure return the source returns without
zeroizing, so the model records the live prekey there; the success return
runs `prekey.zeroize()`. -/
def derive_master_key_tracked (seed salt : Bytes) (kdf : KdfParams)
    (conv_id : Bytes) : Except CryptoError Bytes × Option Bytes :=
  if argonParamsOk kdf = false then (.error .Argon2, none)
  else if salt.length < 8 then (.error .Argon2, some (List.replicate 32 0))
  else
    match hkdfExpand (argon2Hash seed salt kdf) (kmInfo conv_id) 32 with
    | none => (.error .Hkdf, some (argon2Hash seed salt kdf))
    | some km => (.ok km, some (List.replicate 32 0))

/-- On valid parameters and salt, `derive_master_key` succeeds with the
32-byte expansion of the Argon2 prekey under the conversation info string. -/
theorem derive_master_key_ok (seed salt : Bytes) (kdf : KdfParams)
    (conv_id : Bytes) (hp : argonParamsOk kdf = true) (hs : 8 ≤ salt.length) :
    derive_master_key seed salt kdf conv_id
      = .ok ((List.range 32).map
          (prfByte (argon2Hash seed salt kdf ++ 402 :: kmInfo conv_id))) := by
  rw [derive_master_key, if_neg (by simp [hp]), if_neg (by omega),
    hkdfExpand32_some]

/-- `derive_message_key` (`lib.rs` lines 62–70): the master key is
`&[u8; 32]` — 32 bytes by type — and is HKDF-expanded with the
counter-bound info string into the 32-byte message key; the intermediate
`out` buffer is zeroized after the key is copied out. -/
def derive_message_key (km : Bytes) (counter : Nat) :
    Except CryptoError Bytes :=
  match hkdfExpand km (msgInfo counter) 32 with
  | none => .error .Hkdf
  | some out => .ok out

theorem derive_message_key_ok (km : Bytes) (c : Nat) :
    derive_message_key km c
      = .ok ((List.range 32).map (prfByte (km ++ 402 :: msgInfo c))) := by
  rw [derive_message_key, hkdfExpand32_some]

/-! ## wasm boundary (`emcipher-wasm/src/lib.rs`) -/

def profileDesktop : String := "desktop"

def profileMobile : String := "mobile"

/-- `params_from_profile` (`emcipher-wasm/src/lib.rs` lines 6–12): the Rust
`match` on the profile string is sequential string-equality dispatch with a
catch-all arm. -/
def params_from_profile (profile : String) : KdfParams :=
  if profile = profileDesktop then KdfParams.DESKTOP_STRONG
  else if profile = profileMobile then KdfParams.MOBILE_STRONG
  else KdfParams.LOW_POWER

def errBadKmB64 : String := "bad km b64"

def errKmLen : String := "km must be 32 bytes"

def errDeriveMsg : String := "derive_message_key failure"

/-- `derive_message_key_b64` (`emcipher-wasm/src/lib.rs` lines 23–31): decode
the base64 master key, reject a decoded key that is not exactly 32 bytes
before any derivation, then derive and re-encode.  The `JsValue` error
strings are modelled by their constant stems (the source appends the
formatted inner error to the first and last). -/
def derive_message_key_b64 (km_b64 : Bytes) (counter : Nat) :
    Except String Bytes :=
  match b64Decode km_b64 with
  | none => .error errBadKmB64
  | some km =>
    if km.length ≠ 32 then .error errKmLen
    else
      match derive_message_key km counter with
      | .error _ => .error errDeriveMsg
      | .ok key => .ok (b64Encode key)

/-! ## C5 — master-key length precondition of the message-key deriver -/

/-- C5: whenever the supplied master key decodes to a length other than 32
bytes, `derive_message_key_b64` rejects it with the dedicated length error —
distinct from the encoding error and from the derivation error — before any
derivation runs; the core `derive_message_key` only ever receives a
`&[u8; 32]`, so derivation is only performed for 32-byte master keys. -/
theorem derive_message_key_b64_rejects_len (km_b64 km : Bytes) (counter : Nat)
    (hd : b64Decode km_b64 = some km) (hlen : km.length ≠ 32) :
    derive_message_key_b64 km_b64 counter = .error errKmLen
    ∧ errKmLen ≠ errBadKmB64 ∧ errKmLen ≠ errDeriveMsg := by
  refine ⟨?_, by decide, by decide⟩
  rw [derive_message_key_b64, hd]
  simp [hlen]

/-- Witness for C5 at a concrete input (the empty base64 string decodes to
zero bytes). -/
theorem derive_message_key_b64_rejects_len_witness :
    derive_message_key_b64 [] 0 = .error errKmLen
    ∧ errKmLen ≠ errBadKmB64 ∧ errKmLen ≠ errDeriveMsg :=
  derive_message_key_b64_rejects_len [] [] 0 rfl (by decide)

/-! ## C6 — domain separation of the master-key deriver -/

def seedW : Bytes := [115, 101, 101, 100]

def saltW : Bytes := List.replicate 16 7

def convAW : Bytes := [97]

def convBW : Bytes := [98]

/-- C6: with the same seed, salt and valid params, two different
conversation ids give two different HKDF info strings — the conversation
identity is embedded in the info string — and hence different 32-byte master
keys whenever the two expansions differ (the overwhelming-probability event
for the modelled PRF core, checked concretely in the witness). -/
theorem derive_master_key_domain_sep (seed salt : Bytes) (kdf : KdfParams)
    (c1 c2 : Bytes) (hc : c1 ≠ c2) (hp : argonParamsOk kdf = true)
    (hs : 8 ≤ salt.length)
    (hprf : hkdfExpand (argon2Hash seed salt kdf) (kmInfo c1) 32
          ≠ hkdfExpand (argon2Hash seed salt kdf) (kmInfo c2) 32) :
    kmInfo c1 ≠ kmInfo c2 ∧
    derive_master_key seed salt kdf c1 ≠ derive_master_key seed salt kdf c2 := by
  refine ⟨fun h => hc (kmInfo_inj h), ?_⟩
  rw [derive_master_key_ok seed salt kdf c1 hp hs,
    derive_master_key_ok seed salt kdf c2 hp hs]
  rw [hkdfExpand32_some, hkdfExpand32_some] at hprf
  intro h
  apply hprf
  rw [Except.ok.injEq] at h
  rw [h]

set_option maxRecDepth 8000 in
/-- Witness for C6 at concrete inputs. -/
theorem derive_master_key_domain_sep_witness :
    kmInfo convAW ≠ kmInfo convBW ∧
    derive_master_key seedW saltW KdfParams.LOW_POWER convAW
      ≠ derive_master_key seedW saltW KdfParams.LOW_POWER convBW :=
  derive_master_key_domain_sep seedW saltW KdfParams.LOW_POWER convAW convBW
    (by decide) (by decide) (by decide) (by decide)

/-! ## C7 — determinism and counter-distinctness of the message-key deriver -/

def kmW : Bytes := List.replicate 32 3

/-- C7: `derive_message_key` is a pure deterministic function — identical
`(km, counter)` always give the identical result — and two distinct counters
give two distinct info strings (the counter is embedded in the info string),
hence distinct 32-byte message keys whenever the two expansions differ (the
overwhelming-probability event for the modelled PRF core, checked concretely
in the witness). -/
theorem derive_message_key_det_distinct (km : Bytes) (c1 c2 : Nat) :
    derive_message_key km c1 = derive_message_key km c1 ∧
    (c1 ≠ c2 → msgInfo c1 ≠ msgInfo c2 ∧
      (hkdfExpand km (msgInfo c1) 32 ≠ hkdfExpand km (msgInfo c2) 32 →
        derive_message_key km c1 ≠ derive_message_key km c2)) := by
  refine ⟨rfl, fun hc => ⟨fun h => hc (msgInfo_inj h), fun hprf => ?_⟩⟩
  rw [derive_message_key_ok km c1, derive_message_key_ok km c2]
  rw [hkdfExpand32_some, hkdfExpand32_some] at hprf
  intro h
  apply hprf
  rw [Except.ok.injEq] at h
  rw [h]

set_option maxRecDepth 8000 in
/-- Witness for C7 at concrete inputs. -/
theorem derive_message_key_det_distinct_witness :
    derive_message_key kmW 1 ≠ derive_message_key kmW 2 :=
  ((derive_message_key_det_distinct kmW 1 2).2 (by decide)).2 (by
    have e1 : msgInfo 1 = strBytes msgTag ++ decDigits 1 := rfl
    have e2 : msgInfo 2 = strBytes msgTag ++ decDigits 2 := rfl
    rw [e1, e2, show decDigits 1 = [49] from decDigits_lt_ten (by omega),
      show decDigits 2 = [50] from decDigits_lt_ten (by omega)]
    decide)

/-! ## C8 — prekey zeroization on every exit path -/

/-- C8: at every return of `derive_master_key`, the prekey buffer is either
not yet created (the parameter-validation failure returns before the buffer
exists) or holds 32 zero bytes: the Argon2id failure return leaves the
all-zero initializer untouched, the success return zeroizes, and the only
return that skips zeroization in the source — the HKDF-expand failure — is
unreachable, because a 32-byte expand never fails. -/
theorem derive_master_key_prekey_zeroized (seed salt : Bytes)
    (kdf : KdfParams) (conv_id : Bytes) :
    (derive_master_key_tracked seed salt kdf conv_id).2 = none ∨
    (derive_master_key_tracked seed salt kdf conv_id).2
      = some (List.replicate 32 0) := by
  rw [derive_master_key_tracked]
  by_cases h1 : argonParamsOk kdf = false
  · rw [if_pos h1]
    left
    rfl
  · rw [if_neg h1]
    by_cases h2 : salt.length < 8
    · rw [if_pos h2]
      right
      rfl
    · rw [if_neg h2, hkdfExpand32_some]
      right
      rfl

/-! ## C9 — total parameter lookup with conservative fallback -/

def profileTablet : String := "tablet"

/-- C9: `params_from_profile` is total — every profile string yields one of
the three presets — and every tag other than "desktop" and "mobile" falls
back to the most conservative low-resource preset `LOW_POWER`. -/
theorem params_from_profile_total (s : String) :
    (params_from_profile s = KdfParams.DESKTOP_STRONG ∨
     params_from_profile s = KdfParams.MOBILE_STRONG ∨
     params_from_profile s = KdfParams.LOW_POWER) ∧
    (s ≠ profileDesktop → s ≠ profileMobile →
      params_from_profile s = KdfParams.LOW_POWER) := by
  constructor
  · rw [params_from_profile]
    by_cases h1 : s = profileDesktop
    · rw [if_pos h1]
      left
      rfl
    · rw [if_neg h1]
      by_cases h2 : s = profileMobile
      · rw [if_pos h2]
        right
        left
        rfl
      · rw [if_neg h2]
        right
        right
        rfl
  · intro h1 h2
    rw [params_from_profile, if_neg h1, if_neg h2]

/-- Witness for C9 at a concrete unknown tag. -/
theorem params_from_profile_total_witness :
    params_from_profile profileTablet = KdfParams.LOW_POWER :=
  (params_from_profile_total profileTablet).2 (by decide) (by decide)

/-! ## UTF-8 (the `String::from_utf8_lossy` call of `decrypt_aead_b64`)

Modelled from the spec and the std contract: strict UTF-8 validation
(rejecting bad continuation bytes, overlong forms, surrogates and values
above U+10FFFF) and lossy decoding, which substitutes U+FFFD (65533) for
each maximal prefix of a valid sequence that cannot be completed and for
each outright invalid byte. -/

/-- Valid Unicode scalar value: in range and not a surrogate. -/
abbrev scalarOk (c : Nat) : Prop := c < 1114112 ∧ ¬(55296 ≤ c ∧ c < 57344)

/-- UTF-8 encoding of one scalar value. -/
def utf8EncodeChar (c : Nat) : Bytes :=
  if c < 128 then [c]
  else if c < 2048 then [192 + c / 64, 128 + c % 64]
  else if c < 65536 then [224 + c / 4096, 128 + c / 64 % 64, 128 + c % 64]
  else [240 + c / 262144, 128 + c / 4096 % 64, 128 + c / 64 % 64, 128 + c % 64]

/-- UTF-8 encoding of a scalar sequence. -/
def utf8Encode (cps : List Nat) : Bytes :=
  cps.foldr (fun c acc => utf8EncodeChar c ++ acc) []

/-- One strict UTF-8 decoding step: from a lead byte and the following
bytes, the decoded scalar and the remaining bytes, or `none` when no valid
encoded character starts here. -/
def utf8Split (b : Nat) (rest : Bytes) : Option (Nat × Bytes) :=
  if b < 128 then some (b, rest)
  else if 194 ≤ b ∧ b < 224 then
    match rest with
    | b1 :: r =>
        if 128 ≤ b1 ∧ b1 < 192 then some ((b - 192) * 64 + (b1 - 128), r)
        else none
    | [] => none
  else if 224 ≤ b ∧ b < 240 then
    match rest with
    | b1 :: b2 :: r =>
        if ((if b = 224 then 160 else 128) ≤ b1
              ∧ b1 < (if b = 237 then 160 else 192))
            ∧ (128 ≤ b2 ∧ b2 < 192) then
          some ((b - 224) * 4096 + (b1 - 128) * 64 + (b2 - 128), r)
        else none
    | _ => none
  else if 240 ≤ b ∧ b < 245 then
    match rest with
    | b1 :: b2 :: b3 :: r =>
        if ((if b = 240 then 144 else 128) ≤ b1
              ∧ b1 < (if b = 244 then 144 else 192))
            ∧ (128 ≤ b2 ∧ b2 < 192) ∧ (128 ≤ b3 ∧ b3 < 192) then
          some ((b - 240) * 262144 + (b1 - 128) * 4096 + (b2 - 128) * 64
                  + (b3 - 128), r)
        else none
    | _ => none
  else none

/-- The bytes remaining after skipping the maximal subpart of an invalid
sequence that starts at lead byte `b` (used by the lossy decoder: one
replacement character covers the whole skipped subpart). -/
def utf8SkipTail (b : Nat) (rest : Bytes) : Bytes :=
  if 224 ≤ b ∧ b < 240 then
    match rest with
    | b1 :: r =>
        if (if b = 224 then 160 else 128) ≤ b1
            ∧ b1 < (if b = 237 then 160 else 192) then r
        else rest
    | [] => []
  else if 240 ≤ b ∧ b < 245 then
    match rest with
    | b1 :: r =>
        if (if b = 240 then 144 else 128) ≤ b1
            ∧ b1 < (if b = 244 then 144 else 192) then
          match r with
          | b2 :: r2 => if 128 ≤ b2 ∧ b2 < 192 then r2 else r
          | [] => []
        else rest
    | [] => []
  else rest

theorem utf8Split_length {b : Nat} {rest : Bytes} {cr : Nat × Bytes}
    (h : utf8Split b rest = some cr) : cr.2.length ≤ rest.length := by
  rcases rest with _ | ⟨b1, _ | ⟨b2, _ | ⟨b3, r⟩⟩⟩ <;>
    simp only [utf8Split.eq_def] at h <;>
    split_ifs at h <;>
    first
    | exact Option.noConfusion h
    | (obtain rfl := (Option.some.injEq _ _).mp h.symm
       simp
       try omega)

theorem utf8SkipTail_length (b : Nat) (rest : Bytes) :
    (utf8SkipTail b rest).length ≤ rest.length := by
  rcases rest with _ | ⟨b1, _ | ⟨b2, r2⟩⟩ <;>
    simp only [utf8SkipTail.eq_def] <;>
    split_ifs <;> simp <;> omega

/-- Fuel-driven strict UTF-8 decoding. -/
def utf8DecodeAux : Nat → Bytes → Option (List Nat)
  | _, [] => some []
  | 0, _ :: _ => none
  | fuel + 1, b :: rest =>
    match utf8Split b rest with
    | none => none
    | some cr => (utf8DecodeAux fuel cr.2).map (cr.1 :: ·)

/-- Strict UTF-8 decoding (`std::str::from_utf8`): the scalar values of a
byte list, or `none` if the bytes are not valid UTF-8. -/
def utf8Decode (bs : Bytes) : Option (List Nat) := utf8DecodeAux bs.length bs

/-- Fuel-driven lossy UTF-8 decoding. -/
def utf8LossyAux : Nat → Bytes → List Nat
  | _, [] => []
  | 0, _ :: _ => []
  | fuel + 1, b :: rest =>
    match utf8Split b rest with
    | some cr => cr.1 :: utf8LossyAux fuel cr.2
    | none => 65533 :: utf8LossyAux fuel (utf8SkipTail b rest)

/-- Lossy UTF-8 decoding (`String::from_utf8_lossy`) to scalar values:
every maximal invalid subpart becomes one U+FFFD (65533). -/
def utf8Lossy (bs : Bytes) : List Nat := utf8LossyAux bs.length bs

theorem utf8DecodeAux_mono : ∀ (n m : Nat) (bs : Bytes), bs.length ≤ n →
    bs.length ≤ m → utf8DecodeAux n bs = utf8DecodeAux m bs := by
  intro n
  induction n with
  | zero =>
      intro m bs hn _
      cases bs with
      | nil => cases m <;> rfl
      | cons b rest => simp at hn
  | succ n ih =>
      intro m bs hn hm
      cases bs with
      | nil => cases m <;> rfl
      | cons b rest =>
          cases m with
          | zero => simp at hm
          | succ m =>
              rw [utf8DecodeAux, utf8DecodeAux]
              cases hcr : utf8Split b rest with
              | none => rfl
              | some cr =>
                  have hlen := utf8Split_length hcr
                  simp only [List.length_cons] at hn hm
                  have heq := ih m cr.2 (by omega) (by omega)
                  simp only [heq]

theorem utf8DecodeAux_cons_none {fuel b : Nat} {rest : Bytes}
    (hcr : utf8Split b rest = none) :
    utf8DecodeAux (fuel + 1) (b :: rest) = none := by
  simp [utf8DecodeAux, hcr]

theorem utf8DecodeAux_cons_some {fuel b : Nat} {rest : Bytes} {cr : Nat × Bytes}
    (hcr : utf8Split b rest = some cr) :
    utf8DecodeAux (fuel + 1) (b :: rest)
      = (utf8DecodeAux fuel cr.2).map (cr.1 :: ·) := by
  simp [utf8DecodeAux, hcr]

theorem utf8LossyAux_cons_none {fuel b : Nat} {rest : Bytes}
    (hcr : utf8Split b rest = none) :
    utf8LossyAux (fuel + 1) (b :: rest)
      = 65533 :: utf8LossyAux fuel (utf8SkipTail b rest) := by
  simp [utf8LossyAux, hcr]

theorem utf8LossyAux_cons_some {fuel b : Nat} {rest : Bytes} {cr : Nat × Bytes}
    (hcr : utf8Split b rest = some cr) :
    utf8LossyAux (fuel + 1) (b :: rest) = cr.1 :: utf8LossyAux fuel cr.2 := by
  simp [utf8LossyAux, hcr]

/-- A scalar produced by a strict decoding step is a valid scalar value. -/
theorem utf8Split_scalarOk {b : Nat} {rest : Bytes} {cr : Nat × Bytes}
    (h : utf8Split b rest = some cr) : scalarOk cr.1 := by
  rcases rest with _ | ⟨b1, _ | ⟨b2, _ | ⟨b3, r⟩⟩⟩ <;>
    simp only [utf8Split.eq_def] at h <;>
    split_ifs at h <;>
    first
    | exact Option.noConfusion h
    | (obtain rfl := (Option.some.injEq _ _).mp h.symm
       exact ⟨by omega, by omega⟩)

/-- A strict decoding step consumes exactly the UTF-8 encoding of the scalar
it produces. -/
theorem utf8Split_recover {b : Nat} {rest : Bytes} {cr : Nat × Bytes}
    (h : utf8Split b rest = some cr) :
    utf8EncodeChar cr.1 ++ cr.2 = b :: rest := by
  rcases rest with _ | ⟨b1, _ | ⟨b2, _ | ⟨b3, r⟩⟩⟩ <;>
    simp only [utf8Split.eq_def] at h <;>
    split_ifs at h <;>
    first
    | exact Option.noConfusion h
    | (obtain rfl := (Option.some.injEq _ _).mp h.symm
       simp only [utf8EncodeChar]
       split_ifs <;>
         first
         | (exfalso; omega)
         | (simp only [List.cons_append, List.nil_append, List.cons.injEq,
              eq_self_iff_true, and_true]
            try omega))

/-- Wherever strict decoding succeeds, lossy decoding agrees with it. -/
theorem utf8LossyAux_of_decode : ∀ (fuel : Nat) (bs : Bytes) (cps : List Nat),
    bs.length ≤ fuel → utf8DecodeAux fuel bs = some cps →
    utf8LossyAux fuel bs = cps := by
  intro fuel
  induction fuel with
  | zero =>
      intro bs cps hlen h
      cases bs with
      | nil =>
          obtain rfl := (Option.some.injEq _ _).mp h
          rfl
      | cons b rest => simp at hlen
  | succ fuel ih =>
      intro bs cps hlen h
      cases bs with
      | nil =>
          obtain rfl := (Option.some.injEq _ _).mp h
          rfl
      | cons b rest =>
          cases hcr : utf8Split b rest with
          | none =>
              rw [utf8DecodeAux_cons_none hcr] at h
              exact absurd h (by simp)
          | some cr =>
              rw [utf8DecodeAux_cons_some hcr] at h
              rw [Option.map_eq_some'] at h
              obtain ⟨a, ha, rfl⟩ := h
              rw [utf8LossyAux_cons_some hcr]
              have hl := utf8Split_length hcr
              simp only [List.length_cons] at hlen
              rw [ih cr.2 a (by omega) ha]

/-- Wherever strict decoding fails, lossy decoding emits U+FFFD. -/
theorem utf8LossyAux_replacement : ∀ (fuel : Nat) (bs : Bytes),
    bs.length ≤ fuel → utf8DecodeAux fuel bs = none →
    65533 ∈ utf8LossyAux fuel bs := by
  intro fuel
  induction fuel with
  | zero =>
      intro bs hlen h
      cases bs with
      | nil => exact absurd h (by simp [utf8DecodeAux])
      | cons b rest => simp at hlen
  | succ fuel ih =>
      intro bs hlen h
      cases bs with
      | nil => exact absurd h (by simp [utf8DecodeAux])
      | cons b rest =>
          cases hcr : utf8Split b rest with
          | none =>
              rw [utf8LossyAux_cons_none hcr]
              exact List.mem_cons_self _ _
          | some cr =>
              rw [utf8DecodeAux_cons_some hcr] at h
              rw [Option.map_eq_none'] at h
              rw [utf8LossyAux_cons_some hcr]
              have hl := utf8Split_length hcr
              simp only [List.length_cons] at hlen
              exact List.mem_cons_of_mem _ (ih cr.2 (by omega) h)

/-- Every scalar the lossy decoder emits is a valid scalar value. -/
theorem utf8LossyAux_scalarOk : ∀ (fuel : Nat) (bs : Bytes),
    ∀ c ∈ utf8LossyAux fuel bs, scalarOk c := by
  intro fuel
  induction fuel with
  | zero =>
      intro bs c hc
      cases bs with
      | nil => simp [utf8LossyAux] at hc
      | cons b rest => simp [utf8LossyAux] at hc
  | succ fuel ih =>
      intro bs c hc
      cases bs with
      | nil => simp [utf8LossyAux] at hc
      | cons b rest =>
          cases hcr : utf8Split b rest with
          | none =>
              rw [utf8LossyAux_cons_none hcr] at hc
              rcases List.mem_cons.mp hc with rfl | hc
              · exact ⟨by omega, by omega⟩
              · exact ih _ c hc
          | some cr =>
              rw [utf8LossyAux_cons_some hcr] at hc
              rcases List.mem_cons.mp hc with rfl | hc
              · exact utf8Split_scalarOk hcr
              · exact ih _ c hc

/-- Encoding the scalars of a successful strict decode restores the bytes. -/
theorem utf8Encode_of_decodeAux : ∀ (fuel : Nat) (bs : Bytes) (cps : List Nat),
    bs.length ≤ fuel → utf8DecodeAux fuel bs = some cps →
    utf8Encode cps = bs := by
  intro fuel
  induction fuel with
  | zero =>
      intro bs cps hlen h
      cases bs with
      | nil =>
          obtain rfl := (Option.some.injEq _ _).mp h
          rfl
      | cons b rest => simp at hlen
  | succ fuel ih =>
      intro bs cps hlen h
      cases bs with
      | nil =>
          obtain rfl := (Option.some.injEq _ _).mp h
          rfl
      | cons b rest =>
          cases hcr : utf8Split b rest with
          | none =>
              rw [utf8DecodeAux_cons_none hcr] at h
              exact absurd h (by simp)
          | some cr =>
              rw [utf8DecodeAux_cons_some hcr] at h
              rw [Option.map_eq_some'] at h
              obtain ⟨a, ha, rfl⟩ := h
              have hl := utf8Split_length hcr
              simp only [List.length_cons] at hlen
              have hrec : utf8Encode a = cr.2 := ih cr.2 a (by omega) ha
              rw [show utf8Encode (cr.1 :: a) = utf8EncodeChar cr.1 ++ utf8Encode a
                  from rfl]
              rw [hrec]
              exact utf8Split_recover hcr

/-- A strict decoding step consumes the encoding of any valid scalar. -/
theorem utf8Split_encodeChar (c : Nat) (hc : scalarOk c) (tail : Bytes) :
    ∃ b rest, utf8EncodeChar c ++ tail = b :: rest
      ∧ utf8Split b rest = some (c, tail) := by
  obtain ⟨hU, hS⟩ := hc
  by_cases h1 : c < 128
  · refine ⟨c, tail, by rw [utf8EncodeChar, if_pos h1]; rfl, ?_⟩
    simp only [utf8Split.eq_def]
    rw [if_pos h1]
  · by_cases h2 : c < 2048
    · refine ⟨192 + c / 64, (128 + c % 64) :: tail,
        by rw [utf8EncodeChar, if_neg h1, if_pos h2]; rfl, ?_⟩
      simp only [utf8Split.eq_def]
      rw [if_neg (by omega), if_pos (by omega), if_pos (by omega)]
      refine congrArg some ?_
      refine Prod.ext ?_ rfl
      simp
      omega
    · by_cases h3 : c < 65536
      · refine ⟨224 + c / 4096, (128 + c / 64 % 64) :: (128 + c % 64) :: tail,
          by rw [utf8EncodeChar, if_neg h1, if_neg h2, if_pos h3]; rfl, ?_⟩
        simp only [utf8Split.eq_def]
        rw [if_neg (by omega), if_neg (by omega), if_pos (by omega)]
        rw [if_pos (by refine ⟨⟨?_, ?_⟩, by omega, by omega⟩ <;> split_ifs <;> omega)]
        refine congrArg some ?_
        refine Prod.ext ?_ rfl
        simp
        omega
      · refine ⟨240 + c / 262144,
          (128 + c / 4096 % 64) :: (128 + c / 64 % 64) :: (128 + c % 64) :: tail,
          by rw [utf8EncodeChar, if_neg h1, if_neg h2, if_neg h3]; rfl, ?_⟩
        simp only [utf8Split.eq_def]
        rw [if_neg (by omega), if_neg (by omega), if_neg (by omega),
          if_pos (by omega)]
        rw [if_pos (by
          refine ⟨⟨?_, ?_⟩, ⟨by omega, by omega⟩, by omega, by omega⟩ <;>
            split_ifs <;> omega)]
        refine congrArg some ?_
        refine Prod.ext ?_ rfl
        simp
        omega

theorem utf8EncodeChar_length_pos (c : Nat) : 1 ≤ (utf8EncodeChar c).length := by
  rw [utf8EncodeChar]
  split_ifs <;> simp

/-- Strict decoding inverts encoding on valid scalar sequences. -/
theorem utf8Decode_encode (cps : List Nat) (h : ∀ c ∈ cps, scalarOk c) :
    utf8Decode (utf8Encode cps) = some cps := by
  induction cps with
  | nil => rfl
  | cons c cps ih =>
      obtain ⟨b, rest, he, hs⟩ :=
        utf8Split_encodeChar c (h c (by simp)) (utf8Encode cps)
      rw [show utf8Encode (c :: cps) = utf8EncodeChar c ++ utf8Encode cps
          from rfl, he]
      rw [utf8Decode, List.length_cons, utf8DecodeAux_cons_some hs]
      have hlen : (utf8Encode cps).length ≤ rest.length := by
        have h1 := congrArg List.length he
        have h2 := utf8EncodeChar_length_pos c
        simp only [List.length_append, List.length_cons] at h1
        omega
      rw [show ((c, utf8Encode cps) : Nat × Bytes).2 = utf8Encode cps from rfl,
        show ((c, utf8Encode cps) : Nat × Bytes).1 = c from rfl]
      rw [utf8DecodeAux_mono rest.length (utf8Encode cps).length (utf8Encode cps)
        hlen (Nat.le_refl _)]
      rw [show utf8DecodeAux (utf8Encode cps).length (utf8Encode cps)
          = utf8Decode (utf8Encode cps) from rfl]
      rw [ih (fun x hx => h x (by simp [hx]))]
      rfl

/-- Lossy decoding agrees with a successful strict decode. -/
theorem utf8Lossy_of_decode {bs : Bytes} {cps : List Nat}
    (h : utf8Decode bs = some cps) : utf8Lossy bs = cps :=
  utf8LossyAux_of_decode bs.length bs cps (Nat.le_refl _) h

/-- Lossy decoding of invalid bytes contains U+FFFD. -/
theorem utf8Lossy_replacement {bs : Bytes} (h : utf8Decode bs = none) :
    65533 ∈ utf8Lossy bs :=
  utf8LossyAux_replacement bs.length bs (Nat.le_refl _) h

/-- Re-encoding the lossy decode of invalid bytes cannot restore them. -/
theorem utf8Encode_utf8Lossy_ne {bs : Bytes} (h : utf8Decode bs = none) :
    utf8Encode (utf8Lossy bs) ≠ bs := by
  intro heq
  have hv := utf8Decode_encode (utf8Lossy bs)
    (utf8LossyAux_scalarOk bs.length bs)
  rw [heq, h] at hv
  exact Option.noConfusion hv

/-- Re-encoding the lossy decode of valid bytes is byte-exact. -/
theorem utf8Encode_utf8Lossy_eq {bs : Bytes} {cps : List Nat}
    (h : utf8Decode bs = some cps) : utf8Encode (utf8Lossy bs) = bs := by
  rw [utf8Lossy_of_decode h]
  exact utf8Encode_of_decodeAux bs.length bs cps (Nat.le_refl _) h

def errBadKB64 : String := "bad k b64"

def errKeyLen32 : String := "key must be 32 bytes"

def errDecryptB64 : String := "decrypt failure"

/-- `decrypt_aead_b64` (`emcipher-wasm/src/lib.rs` lines 46–53): decode the
base64 key, require exactly 32 bytes, call the core `decrypt_aead`, then hand
back `String::from_utf8_lossy` of the recovered plaintext — modelled as the
scalar-value sequence of the lossy decoding.  `JsValue` error strings are
modelled by their constant stems. -/
def decrypt_aead_b64 (k_b64 nonce_b64 ct_b64 aad : Bytes) :
    Except String (List Nat) :=
  match b64Decode k_b64 with
  | none => .error errBadKB64
  | some k =>
    if k.length ≠ 32 then .error errKeyLen32
    else
      match decrypt_aead k nonce_b64 ct_b64 aad with
      | .error _ => .error errDecryptB64
      | .ok pt => .ok (utf8Lossy pt)

/-- C10: at the wasm boundary `decrypt_aead_b64` returns the lossy UTF-8
conversion of the recovered plaintext: on a well-formed round trip the caller
receives `utf8Lossy pt`; when the plaintext is valid UTF-8 this conversion is
byte-exact (re-encoding restores exactly the plaintext bytes); when it is not
valid UTF-8 the result contains U+FFFD (65533) and re-encoding cannot restore
the original bytes — the boundary round trip is byte-exact only for valid
UTF-8 plaintexts. -/
theorem decrypt_aead_b64_lossy (k nonce pt aad : Bytes)
    (hk : k.length = 32) (hkb : ∀ b ∈ k, b < 256)
    (hn : nonce.length = 24) (hnb : ∀ b ∈ nonce, b < 256)
    (hpb : ∀ b ∈ pt, b < 256) :
    decrypt_aead_b64 (b64Encode k) (b64Encode nonce)
        (b64Encode (aeadSeal k nonce pt aad)) aad = .ok (utf8Lossy pt) ∧
    (∀ cps, utf8Decode pt = some cps → utf8Encode (utf8Lossy pt) = pt) ∧
    (utf8Decode pt = none →
      65533 ∈ utf8Lossy pt ∧ utf8Encode (utf8Lossy pt) ≠ pt) := by
  refine ⟨?_, fun cps h => utf8Encode_utf8Lossy_eq h,
    fun h => ⟨utf8Lossy_replacement h, utf8Encode_utf8Lossy_ne h⟩⟩
  rw [decrypt_aead_b64, b64_round_trip k hkb]
  simp only [hk]
  rw [if_neg (by omega)]
  simp [decrypt_aead_of_seal k pt aad nonce hn hnb hpb]

def ptInvalidW : Bytes := [104, 255]

/-- Witness for C10 at a concrete non-UTF-8 plaintext. -/
theorem decrypt_aead_b64_lossy_witness :
    decrypt_aead_b64 (b64Encode kW) (b64Encode nonceW)
        (b64Encode (aeadSeal kW nonceW ptInvalidW aadW)) aadW
      = .ok (utf8Lossy ptInvalidW) ∧
    (∀ cps, utf8Decode ptInvalidW = some cps →
      utf8Encode (utf8Lossy ptInvalidW) = ptInvalidW) ∧
    (utf8Decode ptInvalidW = none →
      65533 ∈ utf8Lossy ptInvalidW ∧
        utf8Encode (utf8Lossy ptInvalidW) ≠ ptInvalidW) :=
  decrypt_aead_b64_lossy kW nonceW ptInvalidW aadW (by decide) (by decide)
    (by decide) (by decide) (by decide)

end EmCipher
